import Mathlib

/-!
# Verification of the log-structured key/value store (talent-plan, project-4)

This file shallowly embeds the storage engine of
`src/courses/rust/projects/project-4/src/engines/kvs.rs` together with the
wire-protocol encoders of `client.rs` / `server.rs`, and proves or refutes
the frozen specification claims about them.

Modelling conventions:
* Rust `String`s are Lean `String`s; file contents are `List Char`
  (one `Char` per unicode scalar; all offsets and lengths count scalars,
  which matches the byte counts of the source for the ASCII frames the
  program itself emits).
* The `serde_json` codec is embedded concretely: `encodeCommand` produces
  exactly the compact JSON that `serde_json::to_writer` emits for the
  `Command` enum, and `parseCommand` mirrors the behaviour of serde's
  streaming deserializer on that grammar (field order as emitted).
* The concurrent `SkipMap` index is an ordered association list; the writer
  is serialized in the source (single mutex), so the state machine below is
  sequential.
-/

set_option autoImplicit false

namespace Kvs

/-- `Command` mirrors the Rust enum
`enum Command { Set { key, value }, Remove { key } }`. -/
inductive Command where
  | Set (key value : String)
  | Remove (key : String)
deriving DecidableEq, Repr

/-- The key a command refers to. -/
def Command.key : Command → String
  | Command.Set k _ => k
  | Command.Remove k => k

/-! ## JSON codec (`serde_json` on `Command`) -/

/-- Lowercase hex digit, as `serde_json` emits in `\u00XX` escapes. -/
def hexDigit : Nat → Char
  | 0 => '0' | 1 => '1' | 2 => '2' | 3 => '3' | 4 => '4'
  | 5 => '5' | 6 => '6' | 7 => '7' | 8 => '8' | 9 => '9'
  | 10 => 'a' | 11 => 'b' | 12 => 'c' | 13 => 'd' | 14 => 'e'
  | _ => 'f'

/-- JSON string escaping exactly as `serde_json` does for one character:
quote and backslash get a two-char escape, the five short control escapes,
any other control char a `\u00XX` escape, everything else is emitted raw. -/
def escapeChar (c : Char) : List Char :=
  if c = '"' then ['\\', '"']
  else if c = '\\' then ['\\', '\\']
  else if c = Char.ofNat 8 then ['\\', 'b']
  else if c = Char.ofNat 9 then ['\\', 't']
  else if c = Char.ofNat 10 then ['\\', 'n']
  else if c = Char.ofNat 12 then ['\\', 'f']
  else if c = Char.ofNat 13 then ['\\', 'r']
  else if c.toNat < 32 then ['\\', 'u', '0', '0', hexDigit (c.toNat / 16), hexDigit (c.toNat % 16)]
  else [c]

/-- Escape a whole string body. -/
def escapeList : List Char → List Char
  | [] => []
  | c :: t => escapeChar c ++ escapeList t

/-- A JSON string literal: quote, escaped body, quote. -/
def encodeString (s : String) : List Char :=
  '"' :: (escapeList s.data ++ ['"'])

def lbraceChar : Char := Char.ofNat 123
def rbraceChar : Char := Char.ofNat 125

/-- The literal characters of `{"Set":{"key":`. -/
def setHeader : List Char :=
  lbraceChar :: (encodeString "Set" ++ ':' :: lbraceChar :: (encodeString "key" ++ [':']))

/-- The literal characters of `,"value":`. -/
def setMid : List Char := ',' :: (encodeString "value" ++ [':'])

/-- The literal characters of `{"Remove":{"key":`. -/
def removeHeader : List Char :=
  lbraceChar :: (encodeString "Remove" ++ ':' :: lbraceChar :: (encodeString "key" ++ [':']))

/-- The compact JSON frame `serde_json::to_writer` writes for a `Command`:
`{"Set":{"key":K,"value":V}}` or `{"Remove":{"key":K}}`. -/
def encodeCommand : Command → List Char
  | Command.Set k v =>
      setHeader ++ encodeString k ++ setMid ++ encodeString v ++ [rbraceChar, rbraceChar]
  | Command.Remove k =>
      removeHeader ++ encodeString k ++ [rbraceChar, rbraceChar]

/-- JSON whitespace. -/
def isWs (c : Char) : Bool :=
  c = ' ' || c = Char.ofNat 9 || c = Char.ofNat 10 || c = Char.ofNat 13

def skipWs : List Char → List Char
  | [] => []
  | c :: t => if isWs c then skipWs t else c :: t

/-- Hex digit value (serde accepts both cases). -/
def parseHexChar (c : Char) : Option Nat :=
  if '0' ≤ c ∧ c ≤ '9' then some (c.toNat - 48)
  else if 'a' ≤ c ∧ c ≤ 'f' then some (c.toNat - 87)
  else if 'A' ≤ c ∧ c ≤ 'F' then some (c.toNat - 55)
  else none

/-- Parse the body of a JSON string (after the opening quote), returning the
decoded characters and the input remaining after the closing quote.
Raw control characters are rejected, escapes are decoded; a lone surrogate
`\uXXXX` is an error, exactly as in `serde_json` (the encoder never emits
surrogate pairs for this data, so pair decoding is not modelled). -/
def parseStringBody : List Char → Option (List Char × List Char)
  | [] => none
  | c :: t =>
    if c = '"' then some ([], t)
    else if c = '\\' then
      match t with
      | [] => none
      | e :: t2 =>
        if e = '"' then (parseStringBody t2).map (fun p => ('"' :: p.1, p.2))
        else if e = '\\' then (parseStringBody t2).map (fun p => ('\\' :: p.1, p.2))
        else if e = '/' then (parseStringBody t2).map (fun p => ('/' :: p.1, p.2))
        else if e = 'b' then (parseStringBody t2).map (fun p => (Char.ofNat 8 :: p.1, p.2))
        else if e = 't' then (parseStringBody t2).map (fun p => (Char.ofNat 9 :: p.1, p.2))
        else if e = 'n' then (parseStringBody t2).map (fun p => (Char.ofNat 10 :: p.1, p.2))
        else if e = 'f' then (parseStringBody t2).map (fun p => (Char.ofNat 12 :: p.1, p.2))
        else if e = 'r' then (parseStringBody t2).map (fun p => (Char.ofNat 13 :: p.1, p.2))
        else if e = 'u' then
          match t2 with
          | h1 :: h2 :: h3 :: h4 :: t3 =>
            match parseHexChar h1, parseHexChar h2, parseHexChar h3, parseHexChar h4 with
            | some a, some b, some c2, some d =>
              let code := ((a * 16 + b) * 16 + c2) * 16 + d
              if 0xD800 ≤ code ∧ code < 0xE000 then none
              else (parseStringBody t3).map (fun p => (Char.ofNat code :: p.1, p.2))
            | _, _, _, _ => none
          | _ => none
        else none
    else if c.toNat < 32 then none
    else (parseStringBody t).map (fun p => (c :: p.1, p.2))

/-- Skip whitespace, then expect the single character `c`. -/
def expectChar (c : Char) (input : List Char) : Option (List Char) :=
  match skipWs input with
  | x :: t => if x = c then some t else none
  | [] => none

/-- Skip whitespace, then parse a JSON string literal. -/
def parseJString (input : List Char) : Option (String × List Char) :=
  match skipWs input with
  | x :: t =>
    if x = '"' then (parseStringBody t).map (fun p => (String.mk p.1, p.2)) else none
  | [] => none

/-- Parse one `Command` value from the head of the input, mirroring serde's
externally-tagged enum deserializer on the grammar the program emits. -/
def parseCommand (input : List Char) : Option (Command × List Char) := do
  let r1 ← expectChar lbraceChar input
  let (name, r2) ← parseJString r1
  let r3 ← expectChar ':' r2
  if name = "Set" then
    let r4 ← expectChar lbraceChar r3
    let (f1, r5) ← parseJString r4
    if f1 = "key" then
      let r6 ← expectChar ':' r5
      let (k, r7) ← parseJString r6
      let r8 ← expectChar ',' r7
      let (f2, r9) ← parseJString r8
      if f2 = "value" then
        let r10 ← expectChar ':' r9
        let (v, r11) ← parseJString r10
        let r12 ← expectChar rbraceChar r11
        let r13 ← expectChar rbraceChar r12
        some (Command.Set k v, r13)
      else none
    else none
  else if name = "Remove" then
    let r4 ← expectChar lbraceChar r3
    let (f1, r5) ← parseJString r4
    if f1 = "key" then
      let r6 ← expectChar ':' r5
      let (k, r7) ← parseJString r6
      let r8 ← expectChar rbraceChar r7
      let r9 ← expectChar rbraceChar r8
      some (Command.Remove k, r9)
    else none
  else none

/-- `serde_json::from_reader` on a bounded reader: exactly one value, with
only trailing whitespace allowed (`from_reader` calls `end()`). -/
def decodeExact (input : List Char) : Option Command :=
  match parseCommand input with
  | some (c, rest) => if skipWs rest = [] then some c else none
  | none => none

/-- One step of serde's `StreamDeserializer`:
clean end of input, a decode failure, or a parsed command plus the rest. -/
inductive StreamStep where
  | done
  | fail
  | item (c : Command) (rest : List Char)
deriving DecidableEq, Repr

def streamNext (input : List Char) : StreamStep :=
  match skipWs input with
  | [] => StreamStep.done
  | _ :: _ =>
    match parseCommand input with
    | some (c, rest) => StreamStep.item c rest
    | none => StreamStep.fail

/-- The frames emitted for commands are exactly serde_json's compact output. -/
example : String.mk (encodeCommand (Command.Set "a" "b")) =
    "\x7b\"Set\":\x7b\"key\":\"a\",\"value\":\"b\"\x7d\x7d" := by decide

example : String.mk (encodeCommand (Command.Remove "a")) =
    "\x7b\"Remove\":\x7b\"key\":\"a\"\x7d\x7d" := by decide

/-! ## Codec round-trip -/

theorem parseHexChar_hexDigit (n : Nat) (h : n < 16) : parseHexChar (hexDigit n) = some n := by
  interval_cases n <;> decide

theorem parseStringBody_escape : ∀ (s r : List Char),
    parseStringBody (escapeList s ++ '"' :: r) = some (s, r)
  | [], r => by rw [escapeList, List.nil_append, parseStringBody.eq_def]; simp
  | c :: t, r => by
    have IH := parseStringBody_escape t r
    simp only [escapeList, List.append_assoc]
    by_cases h1 : c = '"'
    · subst h1; simp only [escapeChar, if_pos rfl, List.cons_append, List.nil_append]
      rw [parseStringBody.eq_def]; simp [IH]
    · by_cases h2 : c = '\\'
      · subst h2
        simp only [escapeChar, if_neg (by decide : ¬('\\' = '"')), if_pos rfl,
          List.cons_append, List.nil_append]
        rw [parseStringBody.eq_def]; simp [IH]
      · by_cases h3 : c = Char.ofNat 8
        · subst h3; simp only [escapeChar, if_neg h1, if_neg h2, if_pos rfl,
            List.cons_append, List.nil_append]
          rw [parseStringBody.eq_def]; simp [IH]
        · by_cases h4 : c = Char.ofNat 9
          · subst h4; simp only [escapeChar, if_neg h1, if_neg h2, if_neg h3, if_pos rfl,
              List.cons_append, List.nil_append]
            rw [parseStringBody.eq_def]; simp [IH]
          · by_cases h5 : c = Char.ofNat 10
            · subst h5; simp only [escapeChar, if_neg h1, if_neg h2, if_neg h3, if_neg h4,
                if_pos rfl, List.cons_append, List.nil_append]
              rw [parseStringBody.eq_def]; simp [IH]
            · by_cases h6 : c = Char.ofNat 12
              · subst h6; simp only [escapeChar, if_neg h1, if_neg h2, if_neg h3, if_neg h4,
                  if_neg h5, if_pos rfl, List.cons_append, List.nil_append]
                rw [parseStringBody.eq_def]; simp [IH]
              · by_cases h7 : c = Char.ofNat 13
                · subst h7; simp only [escapeChar, if_neg h1, if_neg h2, if_neg h3, if_neg h4,
                    if_neg h5, if_neg h6, if_pos rfl, List.cons_append, List.nil_append]
                  rw [parseStringBody.eq_def]; simp [IH]
                · by_cases h8 : c.toNat < 32
                  · have hhi : c.toNat / 16 < 16 := by omega
                    have hlo : c.toNat % 16 < 16 := by omega
                    have hcode : ((0 * 16 + 0) * 16 + c.toNat / 16) * 16 + c.toNat % 16 =
                        c.toNat := by omega
                    have hcode2 : c.toNat / 16 * 16 + c.toNat % 16 = c.toNat := by omega
                    have hsur : ¬(55296 ≤ c.toNat ∧ c.toNat < 57344) := by omega
                    simp only [escapeChar, if_neg h1, if_neg h2, if_neg h3, if_neg h4, if_neg h5,
                      if_neg h6, if_neg h7, if_pos h8, List.cons_append, List.nil_append]
                    rw [parseStringBody.eq_def]
                    simp [parseHexChar_hexDigit _ hhi, parseHexChar_hexDigit _ hlo,
                      (by decide : parseHexChar '0' = some 0), hcode, hcode2, hsur, IH,
                      Char.ofNat_toNat]
                  · simp only [escapeChar, if_neg h1, if_neg h2, if_neg h3, if_neg h4, if_neg h5,
                      if_neg h6, if_neg h7, if_neg h8, List.cons_append, List.nil_append]
                    rw [parseStringBody.eq_def]
                    simp [h1, h2, h8, IH]

theorem parseJString_encode (s : String) (r : List Char) :
    parseJString (encodeString s ++ r) = some (s, r) := by
  obtain ⟨sd⟩ := s
  have h : encodeString ⟨sd⟩ ++ r = '"' :: (escapeList sd ++ '"' :: r) := by
    simp [encodeString]
  rw [h]
  simp [parseJString, skipWs, isWs, parseStringBody_escape]

theorem expectChar_cons (c : Char) (r : List Char) (h : isWs c = false) :
    expectChar c (c :: r) = some r := by
  simp [expectChar, skipWs, h]

theorem parseCommand_encode (c : Command) (r : List Char) :
    parseCommand (encodeCommand c ++ r) = some (c, r) := by
  cases c with
  | Set k v =>
    have h : encodeCommand (Command.Set k v) ++ r =
        lbraceChar :: (encodeString "Set" ++ (':' :: lbraceChar :: (encodeString "key" ++
          (':' :: (encodeString k ++ (',' :: (encodeString "value" ++
            (':' :: (encodeString v ++ rbraceChar :: rbraceChar :: r))))))))) := by
      simp [encodeCommand, setHeader, setMid]
    rw [parseCommand, h]
    simp [expectChar_cons, parseJString_encode, isWs, lbraceChar, rbraceChar]
  | Remove k =>
    have h : encodeCommand (Command.Remove k) ++ r =
        lbraceChar :: (encodeString "Remove" ++ (':' :: lbraceChar :: (encodeString "key" ++
          (':' :: (encodeString k ++ rbraceChar :: rbraceChar :: r))))) := by
      simp [encodeCommand, removeHeader]
    rw [parseCommand, h]
    simp [expectChar_cons, parseJString_encode, isWs, lbraceChar, rbraceChar]

theorem decodeExact_encode (c : Command) : decodeExact (encodeCommand c) = some c := by
  have h := parseCommand_encode c []
  rw [List.append_nil] at h
  simp [decodeExact, h, skipWs]

theorem encodeCommand_ne_nil (c : Command) : encodeCommand c ≠ [] := by
  cases c <;> simp [encodeCommand, setHeader, removeHeader]

theorem streamNext_encode (c : Command) (r : List Char) :
    streamNext (encodeCommand c ++ r) = StreamStep.item c r := by
  have hhead : ∃ t, encodeCommand c ++ r = lbraceChar :: t := by
    cases c <;> exact ⟨_, rfl⟩
  obtain ⟨t, ht⟩ := hhead
  rw [streamNext, ht]
  have hws : skipWs (lbraceChar :: t) = lbraceChar :: t := by
    simp [skipWs, isWs, lbraceChar]
  rw [hws]
  have := parseCommand_encode c r
  rw [ht] at this
  simp [this]

/-! ## Storage engine state machine (`kvs.rs`) -/

/-- `CommandPos`: the `(gen, pos, len)` location of one record. -/
structure CommandPos where
  gen : Nat
  pos : Nat
  len : Nat
deriving DecidableEq, Repr

/-- The in-memory index: the `SkipMap<String, CommandPos>` as an ordered
association list (keys strictly ascending in reachable states). -/
abbrev Index := List (String × CommandPos)

def lookupIdx : Index → String → Option CommandPos
  | [], _ => none
  | (k', v) :: t, k => if k' = k then some v else lookupIdx t k

/-- `SkipMap::insert`: insert or replace, keeping keys ordered. -/
def insertIdx (k : String) (v : CommandPos) : Index → Index
  | [] => [(k, v)]
  | (k', v') :: t =>
    if k < k' then (k, v) :: (k', v') :: t
    else if k = k' then (k, v) :: t
    else (k', v') :: insertIdx k v t

/-- `SkipMap::remove`: on the duplicate-free lists of reachable states this
is exactly filtering the key out. -/
def removeIdx (k : String) (idx : Index) : Index :=
  idx.filter (fun e => e.1 != k)

/-- Directory contents: association list from generation to file content. -/
abbrev FileMap := List (Nat × List Char)

def lookupFile : FileMap → Nat → Option (List Char)
  | [], _ => none
  | (g, c) :: t, gen => if g = gen then some c else lookupFile t gen

/-- `new_log_file` / `OpenOptions create+append`: an existing file is kept,
a missing one is created empty (inserted in generation order). -/
def createFile (gen : Nat) : FileMap → FileMap
  | [] => [(gen, [])]
  | (g, c) :: t =>
    if gen < g then (gen, []) :: (g, c) :: t
    else if gen = g then (g, c) :: t
    else (g, c) :: createFile gen t

/-- Append characters to the end of the file of generation `gen`
(`O_APPEND` writes always go to the end of the file). -/
def appendFile (gen : Nat) (cs : List Char) : FileMap → FileMap
  | [] => [(gen, cs)]
  | (g, c) :: t => if g = gen then (g, c ++ cs) :: t else (g, c) :: appendFile gen cs t

/-- The variants of `KvsError` reachable from the engine model. -/
inductive KvsErr where
  | ioError
  | serdeError
  | keyNotFound
  | unexpectedCommandType
deriving DecidableEq, Repr

/-- The whole store state: directory contents plus the fields of
`KvStoreWriter` (`writer.pos`, `current_gen`, `uncompacted`), the shared
index and the shared `safe_point` atomic. -/
structure KvState where
  files : FileMap
  currentGen : Nat
  writerPos : Nat
  index : Index
  uncompacted : Nat
  safePoint : Nat
deriving DecidableEq, Repr

def COMPACTION_THRESHOLD : Nat := 1024 * 1024

/-- `KvStoreReader::read_and`: seek to `cp.pos`, then a `Take(cp.len)`
bounded reader (a short file yields a short slice, exactly like `io::Take`).
`none` models the `File::open` failure for a generation with no file. -/
def readSlice (files : FileMap) (cp : CommandPos) : Option (List Char) :=
  (lookupFile files cp.gen).map (fun content => (content.drop cp.pos).take cp.len)

/-- `KvStoreReader::read_command`: `serde_json::from_reader` on the bounded
reader; any decode failure (including a short read) is a serde error. -/
def readCommand (files : FileMap) (cp : CommandPos) : Except KvsErr Command :=
  match readSlice files cp with
  | none => Except.error KvsErr.ioError
  | some sl =>
    match decodeExact sl with
    | some c => Except.ok c
    | none => Except.error KvsErr.serdeError

/-- `KvsEngine::get for KvStore`: index miss answers `None` without touching
any file; otherwise read the located record, a `Set` yields its value and
any other command is `UnexpectedCommandType`. -/
def getOp (s : KvState) (k : String) : Except KvsErr (Option String) :=
  match lookupIdx s.index k with
  | none => Except.ok none
  | some cp =>
    match readCommand s.files cp with
    | Except.ok (Command.Set _ v) => Except.ok (some v)
    | Except.ok (Command.Remove _) => Except.error KvsErr.unexpectedCommandType
    | Except.error e => Except.error e

/-- The copy loop of `KvStoreWriter::compact`: for each index entry in key
order, copy its byte range into the compaction file and build the rewritten
entry `(compaction_gen, new_pos, copied_len)`; the copied length is whatever
`io::copy` actually transferred out of the bounded reader. -/
def compactLoop (files : FileMap) (cgen : Nat) : Index → Nat → Option (Index × List Char)
  | [], _ => some ([], [])
  | (k, cp) :: t, newPos =>
    match readSlice files cp with
    | none => none
    | some sl =>
      (compactLoop files cgen t (newPos + sl.length)).map
        (fun r => ((k, ⟨cgen, newPos, sl.length⟩) :: r.1, sl ++ r.2))

/-- `KvStoreWriter::compact`: reserve `current_gen + 1` for the compaction
file, switch the writer to a fresh `current_gen + 2`, copy all live records,
publish the safe-point, delete all files of generation `< compaction_gen`
and reset the stale-byte counter. An I/O failure during the copy loop is
modelled as failing the whole compaction (no theorem below depends on the
post-failure state). -/
def compactOp (s : KvState) : KvState × Option KvsErr :=
  let compactionGen := s.currentGen + 1
  let newGen := s.currentGen + 2
  let files1 := createFile newGen s.files
  let files2 := createFile compactionGen files1
  match compactLoop files2 compactionGen s.index 0 with
  | none =>
    ({ s with currentGen := newGen, writerPos := 0, files := files2 }, some KvsErr.ioError)
  | some (idx2, cBytes) =>
    let files3 := appendFile compactionGen cBytes files2
    let files4 := files3.filter (fun e => decide (compactionGen ≤ e.1))
    ({ files := files4
       currentGen := newGen
       writerPos := 0
       index := idx2
       uncompacted := 0
       safePoint := compactionGen }, none)

/-- `KvStoreWriter::set`: append the encoded `Set` record at the current
write position, flush, account the shadowed record's length, insert the new
location, and compact when the threshold is exceeded. -/
def setOp (s : KvState) (k v : String) : KvState × Option KvsErr :=
  let e := encodeCommand (Command.Set k v)
  let pos := s.writerPos
  let files1 := appendFile s.currentGen e s.files
  let add := match lookupIdx s.index k with | some old => old.len | none => 0
  let unc := s.uncompacted + add
  let idx1 := insertIdx k ⟨s.currentGen, pos, e.length⟩ s.index
  let s1 := { s with files := files1, writerPos := pos + e.length, index := idx1,
                     uncompacted := unc }
  if COMPACTION_THRESHOLD < unc then compactOp s1 else (s1, none)

/-- `KvStoreWriter::remove`: fail with `KeyNotFound` when the key is absent
(nothing is written and nothing changes); otherwise append the encoded
`Remove` record, drop the index entry, account both the shadowed record and
the `Remove` record itself as stale, and compact when warranted. -/
def removeOp (s : KvState) (k : String) : KvState × Option KvsErr :=
  match lookupIdx s.index k with
  | none => (s, some KvsErr.keyNotFound)
  | some old =>
    let e := encodeCommand (Command.Remove k)
    let pos := s.writerPos
    let files1 := appendFile s.currentGen e s.files
    let idx1 := removeIdx k s.index
    let unc := s.uncompacted + old.len + e.length
    let s1 := { s with files := files1, writerPos := pos + e.length, index := idx1,
                       uncompacted := unc }
    if COMPACTION_THRESHOLD < unc then compactOp s1 else (s1, none)

/-- `load` (startup replay of one file): stream commands from offset 0,
applying each to the index and accumulating the stale-byte count; a decode
failure aborts with a serde error (the `cmd?` in the source). The `fuel`
argument is only a termination device; every call below supplies
`content.length + 1`, which is always sufficient because each parsed record
consumes at least one character. -/
def loadAux (gen : Nat) : Nat → List Char → Nat → Index → Nat → Except KvsErr (Index × Nat)
  | 0, _, _, _, _ => Except.error KvsErr.ioError
  | fuel + 1, input, pos, idx, unc =>
    match streamNext input with
    | StreamStep.done => Except.ok (idx, unc)
    | StreamStep.fail => Except.error KvsErr.serdeError
    | StreamStep.item c rest =>
      let newPos := pos + (input.length - rest.length)
      match c with
      | Command.Set k _ =>
        let add := match lookupIdx idx k with | some old => old.len | none => 0
        loadAux gen fuel rest newPos (insertIdx k ⟨gen, pos, newPos - pos⟩ idx) (unc + add)
      | Command.Remove k =>
        let add := match lookupIdx idx k with | some old => old.len | none => 0
        loadAux gen fuel rest newPos (removeIdx k idx) (unc + add + (newPos - pos))

def loadFile (gen : Nat) (content : List Char) (idx : Index) (unc : Nat) :
    Except KvsErr (Index × Nat) :=
  loadAux gen (content.length + 1) content 0 idx unc

/-- Replay every generation in ascending order (`KvStore::open`'s loop). -/
def loadAll (dir : FileMap) : List Nat → Index → Nat → Except KvsErr (Index × Nat)
  | [], idx, unc => Except.ok (idx, unc)
  | g :: t, idx, unc =>
    match lookupFile dir g with
    | none => Except.error KvsErr.ioError
    | some content =>
      match loadFile g content idx unc with
      | Except.error e => Except.error e
      | Except.ok (idx2, unc2) => loadAll dir t idx2 unc2

def insertGen (x : Nat) : List Nat → List Nat
  | [] => [x]
  | y :: t => if x ≤ y then x :: y :: t else y :: insertGen x t

/-- `sorted_gen_list`: the generation numbers present, sorted ascending. -/
def sortGens : List Nat → List Nat
  | [] => []
  | x :: t => insertGen x (sortGens t)

/-- `KvStore::open`: replay all generations ascending, then open a fresh
active generation `max + 1` (`1` on an empty directory); the safe-point
atomic starts at `0`. -/
def openStore (dir : FileMap) : Except KvsErr KvState :=
  let gens := sortGens (dir.map Prod.fst)
  match loadAll dir gens [] 0 with
  | Except.error e => Except.error e
  | Except.ok (idx, unc) =>
    let currentGen := gens.getLast?.getD 0 + 1
    Except.ok
      { files := createFile currentGen dir
        currentGen := currentGen
        writerPos := 0
        index := idx
        uncompacted := unc
        safePoint := 0 }

/-! ## Association-list toolkit -/

theorem lookupIdx_insertIdx_self (k : String) (v : CommandPos) :
    ∀ idx : Index, lookupIdx (insertIdx k v idx) k = some v
  | [] => by simp [insertIdx, lookupIdx]
  | (k', v') :: t => by
    by_cases h1 : k < k'
    · simp [insertIdx, lookupIdx, h1]
    · by_cases h2 : k = k'
      · simp [insertIdx, lookupIdx, h1, h2]
      · have h3 : ¬(k' = k) := fun he => h2 he.symm
        rw [insertIdx, if_neg h1, if_neg h2, lookupIdx, if_neg h3]
        exact lookupIdx_insertIdx_self k v t

theorem lookupIdx_insertIdx_ne (k k2 : String) (v : CommandPos) (hne : k2 ≠ k) :
    ∀ idx : Index, lookupIdx (insertIdx k v idx) k2 = lookupIdx idx k2
  | [] => by simp [insertIdx, lookupIdx, Ne.symm hne]
  | (k', v') :: t => by
    by_cases h1 : k < k'
    · rw [insertIdx, if_pos h1, lookupIdx, if_neg (Ne.symm hne)]
    · by_cases h2 : k = k'
      · subst h2
        rw [insertIdx, if_neg h1, if_pos rfl, lookupIdx, lookupIdx,
          if_neg (Ne.symm hne), if_neg (Ne.symm hne)]
      · rw [insertIdx, if_neg h1, if_neg h2, lookupIdx, lookupIdx]
        by_cases h3 : k' = k2
        · rw [if_pos h3, if_pos h3]
        · rw [if_neg h3, if_neg h3]
          exact lookupIdx_insertIdx_ne k k2 v hne t

theorem lookupIdx_removeIdx_self (k : String) (idx : Index) :
    lookupIdx (removeIdx k idx) k = none := by
  induction idx with
  | nil => simp [removeIdx, lookupIdx]
  | cons e t ih =>
    obtain ⟨k', v'⟩ := e
    simp only [removeIdx] at ih ⊢
    by_cases h : k' = k
    · rw [List.filter_cons_of_neg (by simp [h])]
      exact ih
    · rw [List.filter_cons_of_pos (by simp [h]), lookupIdx, if_neg h]
      exact ih

theorem lookupIdx_removeIdx_ne (k k2 : String) (hne : k2 ≠ k) (idx : Index) :
    lookupIdx (removeIdx k idx) k2 = lookupIdx idx k2 := by
  induction idx with
  | nil => simp [removeIdx, lookupIdx]
  | cons e t ih =>
    obtain ⟨k', v'⟩ := e
    simp only [removeIdx] at ih ⊢
    by_cases h : k' = k
    · rw [List.filter_cons_of_neg (by simp [h]), ih, lookupIdx,
        if_neg (by rw [h]; exact Ne.symm hne)]
    · rw [List.filter_cons_of_pos (by simp [h]), lookupIdx, lookupIdx, ih]

theorem mem_insertIdx (k : String) (v : CommandPos) (e : String × CommandPos) :
    ∀ idx : Index, e ∈ insertIdx k v idx → e = (k, v) ∨ e ∈ idx
  | [] => by
    intro h
    rw [insertIdx, List.mem_singleton] at h
    left; exact h
  | (k', v') :: t => by
    by_cases h1 : k < k'
    · intro h
      rw [insertIdx, if_pos h1] at h
      rcases List.mem_cons.1 h with h | h
      · left; exact h
      · right; exact h
    · by_cases h2 : k = k'
      · intro h
        rw [insertIdx, if_neg h1, if_pos h2] at h
        rcases List.mem_cons.1 h with h | h
        · left; exact h
        · right; exact List.mem_cons_of_mem _ h
      · intro h
        rw [insertIdx, if_neg h1, if_neg h2] at h
        rcases List.mem_cons.1 h with h | h
        · right; exact h ▸ List.mem_cons_self _ _
        · rcases mem_insertIdx k v e t h with h3 | h3
          · left; exact h3
          · right; exact List.mem_cons_of_mem _ h3

theorem mem_removeIdx (k : String) (e : String × CommandPos) (idx : Index)
    (h : e ∈ removeIdx k idx) : e ∈ idx :=
  List.mem_of_mem_filter h

theorem pairwise_insertIdx (k : String) (v : CommandPos) :
    ∀ idx : Index, List.Pairwise (fun a b => a.1 < b.1) idx →
      List.Pairwise (fun a b => a.1 < b.1) (insertIdx k v idx)
  | [], _ => by simp [insertIdx]
  | (k', v') :: t, hp => by
    rw [List.pairwise_cons] at hp
    by_cases h1 : k < k'
    · rw [insertIdx, if_pos h1]
      refine List.pairwise_cons.2 ⟨?_, List.pairwise_cons.2 hp⟩
      intro e he
      rcases List.mem_cons.1 he with h | h
      · rw [h]; exact h1
      · exact lt_trans h1 (hp.1 e h)
    · by_cases h2 : k = k'
      · subst h2
        rw [insertIdx, if_neg h1, if_pos rfl]
        exact List.pairwise_cons.2 ⟨hp.1, hp.2⟩
      · have h3 : k' < k := lt_of_le_of_ne (not_lt.1 h1) (fun he => h2 he.symm)
        rw [insertIdx, if_neg h1, if_neg h2]
        refine List.pairwise_cons.2 ⟨?_, pairwise_insertIdx k v t hp.2⟩
        intro e he
        rcases mem_insertIdx k v e t he with h | h
        · rw [h]; exact h3
        · exact hp.1 e h

theorem pairwise_removeIdx (k : String) (idx : Index)
    (hp : List.Pairwise (fun a b => a.1 < b.1) idx) :
    List.Pairwise (fun a b => a.1 < b.1) (removeIdx k idx) :=
  List.Pairwise.sublist (List.filter_sublist idx) hp

theorem lookupFile_createFile_absent (g : Nat) :
    ∀ fm : FileMap, lookupFile fm g = none → lookupFile (createFile g fm) g = some []
  | [] => by intro _; simp [createFile, lookupFile]
  | (g', c) :: t => by
    intro h
    rw [lookupFile] at h
    by_cases he : g' = g
    · simp [he] at h
    · rw [if_neg he] at h
      by_cases h1 : g < g'
      · rw [createFile, if_pos h1, lookupFile, if_pos rfl]
      · rw [createFile, if_neg h1, if_neg (fun hx => he hx.symm), lookupFile, if_neg he]
        exact lookupFile_createFile_absent g t h

theorem lookupFile_createFile_other (g g2 : Nat) (hne : g2 ≠ g) :
    ∀ fm : FileMap, lookupFile (createFile g fm) g2 = lookupFile fm g2
  | [] => by simp [createFile, lookupFile, Ne.symm hne]
  | (g', c) :: t => by
    by_cases h1 : g < g'
    · rw [createFile, if_pos h1, lookupFile, if_neg (Ne.symm hne)]
    · by_cases h2 : g = g'
      · rw [createFile, if_neg h1, if_pos h2]
      · rw [createFile, if_neg h1, if_neg h2, lookupFile, lookupFile]
        by_cases h3 : g' = g2
        · rw [if_pos h3, if_pos h3]
        · rw [if_neg h3, if_neg h3]
          exact lookupFile_createFile_other g g2 hne t

theorem lookupFile_appendFile_self (g : Nat) (cs : List Char) :
    ∀ (fm : FileMap) (c : List Char), lookupFile fm g = some c →
      lookupFile (appendFile g cs fm) g = some (c ++ cs)
  | [], c => by simp [lookupFile]
  | (g', c') :: t, c => by
    intro h
    rw [lookupFile] at h
    by_cases he : g' = g
    · subst he
      rw [if_pos rfl] at h
      cases h
      rw [appendFile, if_pos rfl, lookupFile, if_pos rfl]
    · rw [if_neg he] at h
      rw [appendFile, if_neg he, lookupFile, if_neg he]
      exact lookupFile_appendFile_self g cs t c h

theorem lookupFile_appendFile_other (g g2 : Nat) (cs : List Char) (hne : g2 ≠ g) :
    ∀ fm : FileMap, lookupFile (appendFile g cs fm) g2 = lookupFile fm g2
  | [] => by simp [appendFile, lookupFile, Ne.symm hne]
  | (g', c') :: t => by
    by_cases he : g' = g
    · have h3 : ¬(g' = g2) := fun hx => hne (hx ▸ he)
      rw [appendFile, if_pos he, lookupFile, if_neg h3, lookupFile, if_neg h3]
    · rw [appendFile, if_neg he, lookupFile, lookupFile]
      by_cases h3 : g' = g2
      · rw [if_pos h3, if_pos h3]
      · rw [if_neg h3, if_neg h3]
        exact lookupFile_appendFile_other g g2 cs hne t

theorem lookupFile_filter (p : Nat → Bool) (g : Nat) :
    ∀ fm : FileMap, lookupFile (fm.filter (fun e => p e.1)) g =
      if p g then lookupFile fm g else none
  | [] => by simp [lookupFile]
  | (g', c) :: t => by
    by_cases hp : p g'
    · rw [List.filter_cons_of_pos (by simpa using hp), lookupFile]
      by_cases he : g' = g
      · subst he; rw [if_pos rfl, if_pos hp, lookupFile, if_pos rfl]
      · rw [if_neg he, lookupFile_filter p g t, lookupFile, if_neg he]
    · rw [List.filter_cons_of_neg (by simpa using hp), lookupFile_filter p g t]
      by_cases he : g' = g
      · subst he
        rw [lookupFile, if_pos rfl]
        simp [hp]
      · rw [lookupFile, if_neg he]

theorem keys_createFile (g : Nat) (e : Nat × List Char) :
    ∀ fm : FileMap, e ∈ createFile g fm → e.1 = g ∨ e ∈ fm
  | [] => by
    intro h
    rw [createFile, List.mem_singleton] at h
    left; rw [h]
  | (g', c) :: t => by
    by_cases h1 : g < g'
    · intro h
      rw [createFile, if_pos h1] at h
      rcases List.mem_cons.1 h with h | h
      · left; rw [h]
      · right; exact h
    · by_cases h2 : g = g'
      · intro h
        rw [createFile, if_neg h1, if_pos h2] at h
        right; exact h
      · intro h
        rw [createFile, if_neg h1, if_neg h2] at h
        rcases List.mem_cons.1 h with h | h
        · right; exact h ▸ List.mem_cons_self _ _
        · rcases keys_createFile g e t h with h3 | h3
          · left; exact h3
          · right; exact List.mem_cons_of_mem _ h3

theorem keys_appendFile (g : Nat) (cs : List Char) (e : Nat × List Char) :
    ∀ fm : FileMap, e ∈ appendFile g cs fm → e.1 = g ∨ ∃ c0, (e.1, c0) ∈ fm
  | [] => by
    intro h
    rw [appendFile, List.mem_singleton] at h
    left; rw [h]
  | (g', c) :: t => by
    by_cases he : g' = g
    · subst he
      intro h
      rw [appendFile, if_pos rfl] at h
      rcases List.mem_cons.1 h with h | h
      · left; rw [h]
      · right; exact ⟨e.2, List.mem_cons_of_mem _ (by simpa using h)⟩
    · intro h
      rw [appendFile, if_neg he] at h
      rcases List.mem_cons.1 h with h | h
      · right; exact ⟨c, by rw [h]; exact List.mem_cons_self _ _⟩
      · rcases keys_appendFile g cs e t h with h3 | ⟨c0, h3⟩
        · left; exact h3
        · right; exact ⟨c0, List.mem_cons_of_mem _ h3⟩

deriving instance DecidableEq for Except

/-! ## Well-formedness of a store state

These are facts true of every state the program actually reaches: the active
file exists and the writer position is its length (fresh files are only ever
appended to), every on-disk generation is at most the active one, every
index entry points into an existing file, and the index keys are strictly
sorted (it is a map). -/

def StateWF (s : KvState) : Prop :=
  (lookupFile s.files s.currentGen).map List.length = some s.writerPos
  ∧ (∀ e ∈ s.files, e.1 ≤ s.currentGen)
  ∧ (∀ e ∈ s.index, (lookupFile s.files e.2.gen).isSome = true)
  ∧ List.Pairwise (fun a b => a.1 < b.1) s.index

instance (s : KvState) : Decidable (StateWF s) := by
  unfold StateWF
  infer_instance

theorem lookupFile_mem : ∀ (fm : FileMap) (g : Nat) (c : List Char),
    lookupFile fm g = some c → (g, c) ∈ fm
  | [], g, c => by simp [lookupFile]
  | (g', c') :: t, g, c => by
    intro h
    rw [lookupFile] at h
    by_cases he : g' = g
    · rw [if_pos he] at h
      cases h
      rw [he]
      exact List.mem_cons_self _ _
    · rw [if_neg he] at h
      exact List.mem_cons_of_mem _ (lookupFile_mem t g c h)

theorem lookupFile_bound_none (fm : FileMap) (bound g : Nat)
    (hb : ∀ e ∈ fm, e.1 ≤ bound) (hg : bound < g) : lookupFile fm g = none := by
  induction fm with
  | nil => rw [lookupFile]
  | cons e t ih =>
    obtain ⟨g', c⟩ := e
    rw [lookupFile]
    have h1 : g' ≤ bound := hb (g', c) (List.mem_cons_self _ _)
    rw [if_neg (by omega)]
    exact ih (fun e he => hb e (List.mem_cons_of_mem _ he))

/-! ## The compaction copy loop -/

theorem compactLoop_keys (files : FileMap) (cgen : Nat) :
    ∀ (ents : Index) (np : Nat) (idx2 : Index) (bytes : List Char),
      compactLoop files cgen ents np = some (idx2, bytes) →
      idx2.map Prod.fst = ents.map Prod.fst
  | [], np, idx2, bytes => by
    intro h
    rw [compactLoop] at h
    cases h
    rfl
  | (k0, cp0) :: t, np, idx2, bytes => by
    intro h
    rw [compactLoop] at h
    cases hs : readSlice files cp0 with
    | none => rw [hs] at h; cases h
    | some sl0 =>
      rw [hs] at h
      dsimp only at h
      cases hr : compactLoop files cgen t (np + sl0.length) with
      | none => rw [hr] at h; cases h
      | some r =>
        rw [hr] at h
        simp only [Option.map_some'] at h
        cases h
        simp only [List.map_cons]
        rw [compactLoop_keys files cgen t (np + sl0.length) r.1 r.2 (by rw [hr])]

theorem compactLoop_gens (files : FileMap) (cgen : Nat) :
    ∀ (ents : Index) (np : Nat) (idx2 : Index) (bytes : List Char),
      compactLoop files cgen ents np = some (idx2, bytes) →
      ∀ e ∈ idx2, e.2.gen = cgen
  | [], np, idx2, bytes => by
    intro h
    rw [compactLoop] at h
    cases h
    simp
  | (k0, cp0) :: t, np, idx2, bytes => by
    intro h
    rw [compactLoop] at h
    cases hs : readSlice files cp0 with
    | none => rw [hs] at h; cases h
    | some sl0 =>
      rw [hs] at h
      dsimp only at h
      cases hr : compactLoop files cgen t (np + sl0.length) with
      | none => rw [hr] at h; cases h
      | some r =>
        rw [hr] at h
        simp only [Option.map_some'] at h
        cases h
        intro e he
        rcases List.mem_cons.1 he with h | h
        · rw [h]
        · exact compactLoop_gens files cgen t (np + sl0.length) r.1 r.2 (by rw [hr]) e h

/-- Correctness of the copy loop: looked-up keys are preserved, and every
surviving entry points (inside the produced compaction bytes) at exactly the
characters that were read from its old location. -/
theorem compactLoop_lookup (files : FileMap) (cgen : Nat) :
    ∀ (ents : Index) (np : Nat) (idx2 : Index) (bytes : List Char),
      compactLoop files cgen ents np = some (idx2, bytes) →
      ∀ k : String,
        (lookupIdx ents k = none → lookupIdx idx2 k = none) ∧
        (∀ cp, lookupIdx ents k = some cp →
          ∃ sl, readSlice files cp = some sl ∧
            ∃ off, lookupIdx idx2 k = some ⟨cgen, np + off, sl.length⟩ ∧
              (bytes.drop off).take sl.length = sl)
  | [], np, idx2, bytes => by
    intro h
    rw [compactLoop] at h
    cases h
    intro k
    exact ⟨fun _ => rfl, fun cp hcp => by rw [lookupIdx] at hcp; cases hcp⟩
  | (k0, cp0) :: t, np, idx2, bytes => by
    intro h
    rw [compactLoop] at h
    cases hs : readSlice files cp0 with
    | none => rw [hs] at h; cases h
    | some sl0 =>
      rw [hs] at h
      dsimp only at h
      cases hr : compactLoop files cgen t (np + sl0.length) with
      | none => rw [hr] at h; cases h
      | some r =>
        rw [hr] at h
        simp only [Option.map_some'] at h
        cases h
        intro k
        have IH := compactLoop_lookup files cgen t (np + sl0.length) r.1 r.2 (by rw [hr]) k
        by_cases hk : k0 = k
        · constructor
          · intro hnone
            rw [lookupIdx, if_pos hk] at hnone
            cases hnone
          · intro cp hcp
            rw [lookupIdx, if_pos hk] at hcp
            cases hcp
            refine ⟨sl0, hs, 0, ?_, ?_⟩
            · rw [lookupIdx, if_pos hk, Nat.add_zero]
            · rw [List.drop_zero, List.take_left]
        · constructor
          · intro hnone
            rw [lookupIdx, if_neg hk] at hnone
            rw [lookupIdx, if_neg hk]
            exact IH.1 hnone
          · intro cp hcp
            rw [lookupIdx, if_neg hk] at hcp
            obtain ⟨sl, hsl, off, hoff, hslice⟩ := IH.2 cp hcp
            refine ⟨sl, hsl, sl0.length + off, ?_, ?_⟩
            · rw [lookupIdx, if_neg hk, hoff]
              have : np + sl0.length + off = np + (sl0.length + off) := by omega
              rw [this]
            · have hd : (sl0 ++ r.2).drop (sl0.length + off) = r.2.drop off := by
                rw [← List.drop_drop, List.drop_left]
              rw [hd, hslice]

theorem lookupIdx_mem : ∀ (idx : Index) (k : String) (cp : CommandPos),
    lookupIdx idx k = some cp → (k, cp) ∈ idx
  | [], k, cp => by simp [lookupIdx]
  | (k', v') :: t, k, cp => by
    intro h
    rw [lookupIdx] at h
    by_cases he : k' = k
    · rw [if_pos he] at h
      cases h
      rw [he]
      exact List.mem_cons_self _ _
    · rw [if_neg he] at h
      exact List.mem_cons_of_mem _ (lookupIdx_mem t k cp h)

theorem isSome_appendFile (g g2 : Nat) (cs : List Char) (fm : FileMap)
    (h : (lookupFile fm g2).isSome = true) :
    (lookupFile (appendFile g cs fm) g2).isSome = true := by
  by_cases he : g2 = g
  · subst he
    rw [Option.isSome_iff_exists] at h
    obtain ⟨c, hc⟩ := h
    rw [lookupFile_appendFile_self g2 cs fm c hc]
    rfl
  · rw [lookupFile_appendFile_other g g2 cs he fm]
    exact h

/-! ## Get after a successful compaction -/

/-- After a compaction that completed without error, every `get` observes
exactly what it observed before: the copied bytes are the bytes the old
location denoted. -/
theorem compactOp_get_preserved (s1 : KvState)
    (hb : ∀ e ∈ s1.files, e.1 ≤ s1.currentGen)
    (hentries : ∀ e ∈ s1.index, (lookupFile s1.files e.2.gen).isSome = true)
    (s' : KvState) (h : compactOp s1 = (s', none)) (k : String) :
    getOp s' k = getOp s1 k := by
  rw [compactOp] at h
  dsimp only at h
  cases hcl : compactLoop (createFile (s1.currentGen + 1) (createFile (s1.currentGen + 2) s1.files))
      (s1.currentGen + 1) s1.index 0 with
  | none =>
    rw [hcl] at h
    cases h
  | some r =>
    obtain ⟨idx2, cBytes⟩ := r
    rw [hcl] at h
    dsimp only at h
    cases h
    cases hlk : lookupIdx s1.index k with
    | none =>
      have h2 := (compactLoop_lookup _ _ _ _ _ _ hcl k).1 hlk
      rw [getOp, getOp, hlk, h2]
    | some cp =>
      obtain ⟨sl, hsl, off, hoff, hslice⟩ := (compactLoop_lookup _ _ _ _ _ _ hcl k).2 cp hlk
      -- the old location lives in a generation ≤ current_gen
      have hmem : (k, cp) ∈ s1.index := lookupIdx_mem _ _ _ hlk
      have hpres := hentries (k, cp) hmem
      rw [Option.isSome_iff_exists] at hpres
      obtain ⟨oldc, holdc⟩ := hpres
      have hgle : cp.gen ≤ s1.currentGen := hb _ (lookupFile_mem _ _ _ holdc)
      -- reading through the two freshly created files changes nothing
      have hlf2 : lookupFile (createFile (s1.currentGen + 1) (createFile (s1.currentGen + 2)
          s1.files)) cp.gen = lookupFile s1.files cp.gen := by
        rw [lookupFile_createFile_other _ _ (by omega), lookupFile_createFile_other _ _ (by omega)]
      have hsl1 : readSlice s1.files cp = some sl := by
        rw [readSlice, ← hlf2, ← readSlice, hsl]
      -- the compaction file of generation current_gen + 1 holds exactly cBytes
      have hnone : lookupFile (createFile (s1.currentGen + 2) s1.files)
          (s1.currentGen + 1) = none := by
        rw [lookupFile_createFile_other _ _ (by omega)]
        exact lookupFile_bound_none s1.files s1.currentGen _ hb (by omega)
      have hcf : lookupFile (appendFile (s1.currentGen + 1) cBytes
          (createFile (s1.currentGen + 1) (createFile (s1.currentGen + 2) s1.files)))
          (s1.currentGen + 1) = some cBytes := by
        rw [lookupFile_appendFile_self _ _ _ _ (lookupFile_createFile_absent _ _ hnone),
          List.nil_append]
      have hcf4 : lookupFile ((appendFile (s1.currentGen + 1) cBytes
          (createFile (s1.currentGen + 1) (createFile (s1.currentGen + 2)
            s1.files))).filter (fun e => decide (s1.currentGen + 1 ≤ e.1)))
          (s1.currentGen + 1) = some cBytes := by
        rw [lookupFile_filter (fun g => decide (s1.currentGen + 1 ≤ g)), if_pos (by simp), hcf]
      -- both reads decode the same characters
      have hrc1 : readCommand s1.files cp =
          (match decodeExact sl with
            | some c => Except.ok c
            | none => Except.error KvsErr.serdeError) := by
        rw [readCommand, hsl1]
      have hrs2 : readSlice ((appendFile (s1.currentGen + 1) cBytes
          (createFile (s1.currentGen + 1) (createFile (s1.currentGen + 2)
            s1.files))).filter (fun e => decide (s1.currentGen + 1 ≤ e.1)))
          ⟨s1.currentGen + 1, 0 + off, sl.length⟩ = some sl := by
        rw [readSlice, hcf4, Option.map_some', Nat.zero_add, hslice]
      have hrc2 : readCommand ((appendFile (s1.currentGen + 1) cBytes
          (createFile (s1.currentGen + 1) (createFile (s1.currentGen + 2)
            s1.files))).filter (fun e => decide (s1.currentGen + 1 ≤ e.1)))
          ⟨s1.currentGen + 1, 0 + off, sl.length⟩ =
          (match decodeExact sl with
            | some c => Except.ok c
            | none => Except.error KvsErr.serdeError) := by
        rw [readCommand, hrs2]
      rw [getOp, getOp, hlk, hoff]
      dsimp only
      rw [hrc1, hrc2]

/-- If the index locates `k` at a byte range holding exactly the encoded
`Set k v` record, `get k` answers `Some v`. -/
theorem getOp_of_entry (s1 : KvState) (k v : String) (cp : CommandPos)
    (hlk : lookupIdx s1.index k = some cp)
    (hrs : readSlice s1.files cp = some (encodeCommand (Command.Set k v))) :
    getOp s1 k = Except.ok (some v) := by
  have hrc : readCommand s1.files cp = Except.ok (Command.Set k v) := by
    rw [readCommand, hrs]
    dsimp only
    rw [decodeExact_encode]
  rw [getOp, hlk]
  dsimp only
  rw [hrc]

/-- A successful `set(k, v)` is immediately observable: `get(k)` returns
`Ok (Some v)` on the resulting state, whether or not the write triggered a
compaction. -/
theorem setOp_ok_get (s : KvState) (k v : String) (hWF : StateWF s) (s' : KvState)
    (h : setOp s k v = (s', none)) : getOp s' k = Except.ok (some v) := by
  obtain ⟨hact, hb, hentries, hpw⟩ := hWF
  rw [Option.map_eq_some'] at hact
  obtain ⟨act, hactl, hlen⟩ := hact
  rw [setOp] at h
  have hlk : lookupIdx (insertIdx k
      ⟨s.currentGen, s.writerPos, (encodeCommand (Command.Set k v)).length⟩ s.index) k =
      some ⟨s.currentGen, s.writerPos, (encodeCommand (Command.Set k v)).length⟩ :=
    lookupIdx_insertIdx_self _ _ _
  have hrs : readSlice (appendFile s.currentGen (encodeCommand (Command.Set k v)) s.files)
      ⟨s.currentGen, s.writerPos, (encodeCommand (Command.Set k v)).length⟩ =
      some (encodeCommand (Command.Set k v)) := by
    rw [readSlice, lookupFile_appendFile_self _ _ _ _ hactl, Option.map_some']
    dsimp only
    rw [← hlen, List.drop_left, List.take_length]
  split at h
  · -- the write pushed the stale counter over the threshold: compaction ran
    have hb1 : ∀ e ∈ appendFile s.currentGen (encodeCommand (Command.Set k v)) s.files,
        e.1 ≤ s.currentGen := by
      intro e he
      rcases keys_appendFile _ _ _ _ he with h1 | ⟨c0, h1⟩
      · omega
      · exact hb (e.1, c0) h1
    have hent1 : ∀ e2 ∈ insertIdx k
        ⟨s.currentGen, s.writerPos, (encodeCommand (Command.Set k v)).length⟩ s.index,
        (lookupFile (appendFile s.currentGen (encodeCommand (Command.Set k v)) s.files)
          e2.2.gen).isSome = true := by
      intro e2 he2
      rcases mem_insertIdx _ _ _ _ he2 with h1 | h1
      · rw [h1]
        dsimp only
        rw [lookupFile_appendFile_self _ _ _ _ hactl]
        rfl
      · exact isSome_appendFile _ _ _ _ (hentries e2 h1)
    have hpre := compactOp_get_preserved _ hb1 hent1 s' h k
    rw [hpre]
    exact getOp_of_entry _ k v _ hlk hrs
  · -- no compaction: the state is exactly the appended-and-indexed one
    rw [Prod.mk.injEq] at h
    obtain ⟨h1, -⟩ := h
    rw [← h1]
    exact getOp_of_entry _ k v _ hlk hrs

/-- The error component of `compact` is never `KeyNotFound`. -/
theorem compactOp_snd (x : KvState) :
    (compactOp x).2 = none ∨ (compactOp x).2 = some KvsErr.ioError := by
  rw [compactOp]
  dsimp only
  cases hcl : compactLoop (createFile (x.currentGen + 1) (createFile (x.currentGen + 2) x.files))
      (x.currentGen + 1) x.index 0 with
  | none => right; rfl
  | some r => obtain ⟨a, b⟩ := r; left; rfl

/-- The state of a store opened on an empty directory. -/
def baseState : KvState :=
  { files := [(1, [])], currentGen := 1, writerPos := 0, index := [], uncompacted := 0,
    safePoint := 0 }

/-! ## Claims -/

/-- C2: for every key `k` and value `v`, if `set(k,v)` returns successfully
then an immediately following `get(k)` on the same store returns
`Ok (Some v)` (also when the `set` triggered a compaction). -/
theorem claim_C2_set_then_get (s : KvState) (k v : String) (hWF : StateWF s) (s' : KvState)
    (h : setOp s k v = (s', none)) : getOp s' k = Except.ok (some v) :=
  setOp_ok_get s k v hWF s' h

theorem claim_C2_set_then_get_witness :
    getOp (setOp baseState "a" "1").1 "a" = Except.ok (some "1") :=
  claim_C2_set_then_get baseState "a" "1" (by decide) (setOp baseState "a" "1").1 (by decide)

/-- C3: compaction is observably transparent — a successful `compact` never
changes the result of any subsequent `get`. -/
theorem claim_C3_compaction_transparent (s : KvState) (hWF : StateWF s) (s' : KvState)
    (h : compactOp s = (s', none)) (k : String) : getOp s' k = getOp s k := by
  obtain ⟨-, hb, hentries, -⟩ := hWF
  exact compactOp_get_preserved s hb hentries s' h k

theorem claim_C3_compaction_transparent_witness :
    getOp (compactOp baseState).1 "a" = getOp baseState "a" :=
  claim_C3_compaction_transparent baseState (by decide) (compactOp baseState).1 (by decide) "a"

/-- C4: `remove(k)` fails with `KeyNotFound` exactly when the index has no
entry for `k`, and in that case nothing at all changes: the returned state
is the input state (no log append, same index, same stale-byte counter). -/
theorem claim_C4_remove_key_not_found (s : KvState) (k : String) :
    ((removeOp s k).2 = some KvsErr.keyNotFound ↔ lookupIdx s.index k = none) ∧
    (lookupIdx s.index k = none → removeOp s k = (s, some KvsErr.keyNotFound)) := by
  constructor
  · constructor
    · intro h
      cases hlk : lookupIdx s.index k with
      | none => rfl
      | some old =>
        rw [removeOp, hlk] at h
        dsimp only at h
        split at h
        · rcases compactOp_snd _ with h2 | h2 <;> rw [h] at h2 <;> cases h2
        · cases h
    · intro h
      rw [removeOp, h]
  · intro h
    rw [removeOp, h]

theorem claim_C4_remove_key_not_found_witness :
    removeOp baseState "a" = (baseState, some KvsErr.keyNotFound) :=
  (claim_C4_remove_key_not_found baseState "a").2 (by decide)

/-- C6: a compaction run from writer generation `g` targets the file of
generation `g + 1`, makes `g + 2` the new active generation (and creates
that file), atomically publishes `g + 1` as the safe-point, and resets the
stale-byte counter to zero. -/
theorem claim_C6_compaction_generations (s s' : KvState) (hWF : StateWF s)
    (h : compactOp s = (s', none)) :
    s'.currentGen = s.currentGen + 2 ∧ s'.safePoint = s.currentGen + 1 ∧
    s'.uncompacted = 0 ∧
    (lookupFile s'.files (s.currentGen + 1)).isSome = true ∧
    (lookupFile s'.files (s.currentGen + 2)).isSome = true := by
  obtain ⟨-, hb, -, -⟩ := hWF
  rw [compactOp] at h
  dsimp only at h
  cases hcl : compactLoop (createFile (s.currentGen + 1) (createFile (s.currentGen + 2) s.files))
      (s.currentGen + 1) s.index 0 with
  | none => rw [hcl] at h; cases h
  | some r =>
    obtain ⟨idx2, cBytes⟩ := r
    rw [hcl] at h
    dsimp only at h
    cases h
    have hnone : lookupFile (createFile (s.currentGen + 2) s.files) (s.currentGen + 1) = none := by
      rw [lookupFile_createFile_other _ _ (by omega)]
      exact lookupFile_bound_none s.files s.currentGen _ hb (by omega)
    refine ⟨rfl, rfl, rfl, ?_, ?_⟩
    · rw [lookupFile_filter (fun g => decide (s.currentGen + 1 ≤ g)), if_pos (by simp),
        lookupFile_appendFile_self _ _ _ _ (lookupFile_createFile_absent _ _ hnone)]
      rfl
    · rw [lookupFile_filter (fun g => decide (s.currentGen + 1 ≤ g)), if_pos (by simp),
        lookupFile_appendFile_other _ _ _ (by omega),
        lookupFile_createFile_other _ _ (by omega),
        lookupFile_createFile_absent _ _
          (lookupFile_bound_none s.files s.currentGen _ hb (by omega))]
      rfl

theorem claim_C6_compaction_generations_witness :
    (compactOp baseState).1.currentGen = baseState.currentGen + 2 ∧
    (compactOp baseState).1.safePoint = baseState.currentGen + 1 ∧
    (compactOp baseState).1.uncompacted = 0 ∧
    (lookupFile (compactOp baseState).1.files (baseState.currentGen + 1)).isSome = true ∧
    (lookupFile (compactOp baseState).1.files (baseState.currentGen + 2)).isSome = true :=
  claim_C6_compaction_generations baseState (compactOp baseState).1 (by decide) (by decide)

/-! ## Wire protocol (`common.rs`, `client.rs`, `server.rs`)

The client writes each request with `serde_json::to_writer` directly on the
TCP stream and flushes; the server does the same for each response
(`send_resp!`). Frames are therefore bare, self-delimiting JSON values with
no framing prefix of any kind. -/

/-- `enum Request { Get { key }, Set { key, value }, Remove { key } }`. -/
inductive Request where
  | Get (key : String)
  | Set (key value : String)
  | Remove (key : String)
deriving DecidableEq, Repr

/-- `enum GetResponse { Ok(Option<String>), Err(String) }`. -/
inductive GetResponse where
  | Ok (value : Option String)
  | Err (msg : String)
deriving DecidableEq, Repr

/-- `enum SetResponse { Ok(()), Err(String) }`. -/
inductive SetResponse where
  | Ok
  | Err (msg : String)
deriving DecidableEq, Repr

/-- `enum RemoveResponse { Ok(()), Err(String) }`. -/
inductive RemoveResponse where
  | Ok
  | Err (msg : String)
deriving DecidableEq, Repr

/-- serde_json for `Option<String>`: `Some v` is the plain string, `None`
is `null`. -/
def encodeOptString : Option String → List Char
  | some v => encodeString v
  | none => ['n', 'u', 'l', 'l']

/-- The exact bytes `KvsClient::get/set/remove` writes on the stream for one
request: `serde_json::to_writer(&mut self.writer, &Request::…)` followed by
a flush — the compact JSON of the externally tagged enum and nothing else. -/
def encodeRequest : Request → List Char
  | Request.Get k =>
      lbraceChar :: (encodeString "Get" ++ ':' :: lbraceChar ::
        (encodeString "key" ++ ':' :: (encodeString k ++ [rbraceChar, rbraceChar])))
  | Request.Set k v =>
      lbraceChar :: (encodeString "Set" ++ ':' :: lbraceChar ::
        (encodeString "key" ++ ':' :: (encodeString k ++ ',' ::
          (encodeString "value" ++ ':' :: (encodeString v ++ [rbraceChar, rbraceChar])))))
  | Request.Remove k =>
      lbraceChar :: (encodeString "Remove" ++ ':' :: lbraceChar ::
        (encodeString "key" ++ ':' :: (encodeString k ++ [rbraceChar, rbraceChar])))

/-- The exact bytes `serve`'s `send_resp!` writes for a `GetResponse`:
`{"Ok":…}` or `{"Err":…}`. -/
def encodeGetResponse : GetResponse → List Char
  | GetResponse.Ok v =>
      lbraceChar :: (encodeString "Ok" ++ ':' :: (encodeOptString v ++ [rbraceChar]))
  | GetResponse.Err m =>
      lbraceChar :: (encodeString "Err" ++ ':' :: (encodeString m ++ [rbraceChar]))

/-- The bytes `send_resp!` writes for a `SetResponse` (`Ok(())` is
`{"Ok":null}`). -/
def encodeSetResponse : SetResponse → List Char
  | SetResponse.Ok =>
      lbraceChar :: (encodeString "Ok" ++ ':' :: ('n' :: 'u' :: 'l' :: 'l' :: [rbraceChar]))
  | SetResponse.Err m =>
      lbraceChar :: (encodeString "Err" ++ ':' :: (encodeString m ++ [rbraceChar]))

/-- The bytes `send_resp!` writes for a `RemoveResponse`. -/
def encodeRemoveResponse : RemoveResponse → List Char
  | RemoveResponse.Ok =>
      lbraceChar :: (encodeString "Ok" ++ ':' :: ('n' :: 'u' :: 'l' :: 'l' :: [rbraceChar]))
  | RemoveResponse.Err m =>
      lbraceChar :: (encodeString "Err" ++ ':' :: (encodeString m ++ [rbraceChar]))

/-- Big-endian 32-bit byte decomposition. -/
def beBytes32 (n : Nat) : List Nat :=
  [n / 2 ^ 24 % 256, n / 2 ^ 16 % 256, n / 2 ^ 8 % 256, n % 256]

/-- A frame is length-delimited in the claimed sense when it starts with a
big-endian 32-bit prefix holding the length of the payload that follows. -/
def lengthPrefixed (frame : List Char) : Prop :=
  4 ≤ frame.length ∧ (frame.take 4).map Char.toNat = beBytes32 (frame.length - 4)

instance (frame : List Char) : Decidable (lengthPrefixed frame) := by
  unfold lengthPrefixed
  infer_instance

/-- C5 fails on the code: neither the client's request frames nor the
server's response frames carry any length prefix. Concretely, the frame for
`Get{"a"}` and the frame for `GetResponse::Ok(Some("1"))` are not
length-prefixed. -/
theorem claim_C5_counterexample :
    ¬lengthPrefixed (encodeRequest (Request.Get "a")) ∧
    ¬lengthPrefixed (encodeGetResponse (GetResponse.Ok (some "1"))) := by decide

/-- C5 amended: every request frame the client sends and every response
frame the server sends is a bare, self-delimiting JSON value written
directly on the stream — it begins with the `0x7b` byte of its JSON object,
not with a length prefix; the peers delimit frames with a streaming JSON
parser. -/
theorem claim_C5_amended_json_frames :
    (∀ r : Request, (encodeRequest r).head? = some lbraceChar) ∧
    (∀ g : GetResponse, (encodeGetResponse g).head? = some lbraceChar) ∧
    (∀ g : SetResponse, (encodeSetResponse g).head? = some lbraceChar) ∧
    (∀ g : RemoveResponse, (encodeRemoveResponse g).head? = some lbraceChar) := by
  refine ⟨?_, ?_, ?_, ?_⟩ <;> intro g <;> cases g <;> rfl

/-! ## C9: get on a miss, and get over a damaged location -/

/-- C9's first half holds: on an index miss `get` answers `Ok None` no
matter what the files contain (it performs no read — the result is the same
for every possible directory content). The second half is amended: an entry
whose range decodes to a `Remove` yields `UnexpectedCommandType`, but a
range that fails to decode (for example a short read) propagates the serde
decode error instead. -/
theorem claim_C9_amended_get_errors (s : KvState) (k : String) :
    (lookupIdx s.index k = none →
      ∀ fm : FileMap, getOp { s with files := fm } k = Except.ok none) ∧
    (∀ cp, lookupIdx s.index k = some cp →
      (∀ k2, readCommand s.files cp = Except.ok (Command.Remove k2) →
        getOp s k = Except.error KvsErr.unexpectedCommandType) ∧
      (readCommand s.files cp = Except.error KvsErr.serdeError →
        getOp s k = Except.error KvsErr.serdeError)) := by
  constructor
  · intro h fm
    rw [getOp]
    dsimp only
    rw [h]
  · intro cp hcp
    constructor
    · intro k2 hrc
      rw [getOp, hcp]
      dsimp only
      rw [hrc]
    · intro hrc
      rw [getOp, hcp]
      dsimp only
      rw [hrc]

/-- A state whose only index entry is a 3-character range inside a valid
`Set` record: reading it back is a short read. -/
def shortReadState : KvState :=
  { files := [(1, encodeCommand (Command.Set "a" "1"))], currentGen := 2, writerPos := 0,
    index := [("a", ⟨1, 0, 3⟩)], uncompacted := 0, safePoint := 0 }

/-- C9 fails on the code for short reads: on `shortReadState` the bounded
read is short, `serde_json::from_reader` fails, and `get` returns the serde
error — not `UnexpectedCommandType` as claimed. -/
theorem claim_C9_counterexample :
    getOp shortReadState "a" = Except.error KvsErr.serdeError ∧
    getOp shortReadState "a" ≠ Except.error KvsErr.unexpectedCommandType := by decide

theorem claim_C9_amended_get_errors_witness :
    getOp shortReadState "a" = Except.error KvsErr.serdeError :=
  ((claim_C9_amended_get_errors shortReadState "a").2 ⟨1, 0, 3⟩ (by decide)).2 (by decide)

/-- C10: the engine imposes no non-emptiness restriction on keys or values:
a successful `set("", v)` is observable by `get("")`, a successful
`set(k, "")` makes `get(k)` return `Ok (Some "")`, and that result is
distinct from the `Ok None` of an absent key. -/
theorem claim_C10_empty_keys_values (s : KvState) (hWF : StateWF s) :
    (∀ v : String, ∀ s' : KvState, setOp s "" v = (s', none) →
      getOp s' "" = Except.ok (some v)) ∧
    (∀ k : String, ∀ s' : KvState, setOp s k "" = (s', none) →
      getOp s' k = Except.ok (some "")) ∧
    (Except.ok (some "") : Except KvsErr (Option String)) ≠ Except.ok none :=
  ⟨fun v s' h => setOp_ok_get s "" v hWF s' h,
   fun k s' h => setOp_ok_get s k "" hWF s' h,
   by simp⟩

theorem claim_C10_empty_keys_values_witness :
    getOp (setOp baseState "" "x").1 "" = Except.ok (some "x") ∧
    getOp (setOp baseState "k" "").1 "k" = Except.ok (some "") :=
  ⟨(claim_C10_empty_keys_values baseState (by decide)).1 "x" _ (by decide),
   (claim_C10_empty_keys_values baseState (by decide)).2.1 "k" _ (by decide)⟩

/-! ## C1: replay of a file with a damaged tail -/

/-- The byte content of a log file holding the given records in order. -/
def encodeRecords : List Command → List Char
  | [] => []
  | c :: t => encodeCommand c ++ encodeRecords t

/-- Replay propagates a decode failure: when the input is any sequence of
well-formed records followed by a tail on which the stream decoder fails,
`load` returns the serde error instead of stopping at the last clean
record. -/
theorem loadAux_encode_fail (gen : Nat) :
    ∀ (rs : List Command) (t : List Char) (fuel pos : Nat) (idx : Index) (unc : Nat),
      (encodeRecords rs ++ t).length < fuel → streamNext t = StreamStep.fail →
      loadAux gen fuel (encodeRecords rs ++ t) pos idx unc = Except.error KvsErr.serdeError
  | [], t, fuel, pos, idx, unc => by
    intro hf hbad
    rw [encodeRecords, List.nil_append] at hf ⊢
    cases fuel with
    | zero => omega
    | succ f => rw [loadAux, hbad]
  | c :: rs, t, fuel, pos, idx, unc => by
    intro hf hbad
    rw [encodeRecords, List.append_assoc] at hf ⊢
    cases fuel with
    | zero => omega
    | succ f =>
      rw [loadAux, streamNext_encode]
      have hlen : (encodeRecords rs ++ t).length < f := by
        have h1 := List.length_append (encodeCommand c) (encodeRecords rs ++ t)
        have h2 : 0 < (encodeCommand c).length := List.length_pos.mpr (encodeCommand_ne_nil c)
        omega
      cases c with
      | Set k v =>
        dsimp only
        exact loadAux_encode_fail gen rs t f _ _ _ hlen hbad
      | Remove k =>
        dsimp only
        exact loadAux_encode_fail gen rs t f _ _ _ hlen hbad

/-- A directory whose single log file ends in the first five characters of
a second record: a truncated tail. -/
def truncatedDir : FileMap :=
  [(1, encodeCommand (Command.Set "a" "1") ++ (encodeCommand (Command.Set "b" "2")).take 5)]

/-- C1 fails on the code: opening a directory whose last file has a
truncated trailing record does not succeed — the replay error propagates
out of `open` (`cmd?` in `load`), exactly as `KvStore::open`'s own doc
comment says ("It propagates I/O or deserialization errors during the log
replay"). -/
theorem claim_C1_counterexample :
    openStore truncatedDir = Except.error KvsErr.serdeError ∧
    ∀ s : KvState, openStore truncatedDir ≠ Except.ok s := by
  constructor
  · decide
  · intro s hs
    rw [show openStore truncatedDir = Except.error KvsErr.serdeError from by decide] at hs
    cases hs

/-! ## C7: the safe-point invariant over all reachable states -/

/-- States reachable by opening a directory and then any sequence of
`set` / `remove` / `compact` operations (including ones that returned an
error). -/
inductive Reaches : KvState → Prop where
  | opened (dir : FileMap) (s : KvState) (h : openStore dir = Except.ok s) : Reaches s
  | setStep (s : KvState) (k v : String) (s' : KvState) (e : Option KvsErr)
      (hr : Reaches s) (h : setOp s k v = (s', e)) : Reaches s'
  | removeStep (s : KvState) (k : String) (s' : KvState) (e : Option KvsErr)
      (hr : Reaches s) (h : removeOp s k = (s', e)) : Reaches s'
  | compactStep (s : KvState) (s' : KvState) (e : Option KvsErr)
      (hr : Reaches s) (h : compactOp s = (s', e)) : Reaches s'

/-- The safe-point invariant: the safe-point never exceeds the active
generation, and no index entry references a generation below it. -/
def InvSp (s : KvState) : Prop :=
  s.safePoint ≤ s.currentGen ∧ ∀ e ∈ s.index, s.safePoint ≤ e.2.gen

theorem openStore_invSp (dir : FileMap) (s : KvState)
    (h : openStore dir = Except.ok s) : InvSp s := by
  rw [openStore] at h
  dsimp only at h
  cases hl : loadAll dir (sortGens (dir.map Prod.fst)) [] 0 with
  | error e => rw [hl] at h; cases h
  | ok r =>
    obtain ⟨idx, unc⟩ := r
    rw [hl] at h
    dsimp only at h
    cases h
    exact ⟨Nat.zero_le _, fun e he => Nat.zero_le _⟩

theorem compactOp_invSp (s s' : KvState) (e : Option KvsErr) (hs : InvSp s)
    (h : compactOp s = (s', e)) : InvSp s' := by
  rw [compactOp] at h
  dsimp only at h
  cases hcl : compactLoop (createFile (s.currentGen + 1) (createFile (s.currentGen + 2) s.files))
      (s.currentGen + 1) s.index 0 with
  | none =>
    rw [hcl] at h
    cases h
    refine ⟨?_, hs.2⟩
    have := hs.1
    dsimp only
    omega
  | some r =>
    obtain ⟨idx2, cBytes⟩ := r
    rw [hcl] at h
    dsimp only at h
    cases h
    refine ⟨?_, ?_⟩
    · dsimp only
      omega
    · intro e2 he2
      have hg := compactLoop_gens _ _ _ _ _ _ hcl e2 he2
      dsimp only
      rw [hg]

theorem setOp_invSp (s : KvState) (k v : String) (s' : KvState) (e : Option KvsErr)
    (hs : InvSp s) (h : setOp s k v = (s', e)) : InvSp s' := by
  have hs1 : InvSp { s with
      files := appendFile s.currentGen (encodeCommand (Command.Set k v)) s.files,
      writerPos := s.writerPos + (encodeCommand (Command.Set k v)).length,
      index := insertIdx k
        ⟨s.currentGen, s.writerPos, (encodeCommand (Command.Set k v)).length⟩ s.index,
      uncompacted := s.uncompacted +
        (match lookupIdx s.index k with | some old => old.len | none => 0) } := by
    refine ⟨hs.1, ?_⟩
    intro e2 he2
    rcases mem_insertIdx _ _ _ _ he2 with h1 | h1
    · rw [h1]
      exact hs.1
    · exact hs.2 e2 h1
  rw [setOp] at h
  split at h
  · exact compactOp_invSp _ _ _ hs1 h
  · rw [Prod.mk.injEq] at h
    obtain ⟨h1, -⟩ := h
    rw [← h1]
    exact hs1

theorem removeOp_invSp (s : KvState) (k : String) (s' : KvState) (e : Option KvsErr)
    (hs : InvSp s) (h : removeOp s k = (s', e)) : InvSp s' := by
  rw [removeOp] at h
  cases hlk : lookupIdx s.index k with
  | none =>
    rw [hlk] at h
    cases h
    exact hs
  | some old =>
    rw [hlk] at h
    dsimp only at h
    have hs1 : InvSp { s with
        files := appendFile s.currentGen (encodeCommand (Command.Remove k)) s.files,
        writerPos := s.writerPos + (encodeCommand (Command.Remove k)).length,
        index := removeIdx k s.index,
        uncompacted := s.uncompacted + old.len + (encodeCommand (Command.Remove k)).length } := by
      refine ⟨hs.1, ?_⟩
      intro e2 he2
      exact hs.2 e2 (mem_removeIdx _ _ _ he2)
    split at h
    · exact compactOp_invSp _ _ _ hs1 h
    · rw [Prod.mk.injEq] at h
      obtain ⟨h1, -⟩ := h
      rw [← h1]
      exact hs1

theorem reaches_invSp (s : KvState) (h : Reaches s) : InvSp s := by
  induction h with
  | opened dir s h => exact openStore_invSp dir s h
  | setStep s k v s' e hr h ih => exact setOp_invSp s k v s' e ih h
  | removeStep s k s' e hr h ih => exact removeOp_invSp s k s' e ih h
  | compactStep s s' e hr h ih => exact compactOp_invSp s s' e ih h

/-- C7: in every state reachable by any sequence of open/set/remove/compact
operations, no index entry references a generation strictly below the
current safe-point. -/
theorem claim_C7_safe_point_invariant (s : KvState) (h : Reaches s) :
    ∀ e ∈ s.index, s.safePoint ≤ e.2.gen :=
  (reaches_invSp s h).2

theorem claim_C7_safe_point_invariant_witness :
    (setOp baseState "a" "1").1.safePoint ≤ (⟨1, 0, 31⟩ : CommandPos).gen :=
  claim_C7_safe_point_invariant (setOp baseState "a" "1").1
    (Reaches.setStep baseState "a" "1" (setOp baseState "a" "1").1 (setOp baseState "a" "1").2
      (Reaches.opened [] baseState (by decide)) rfl)
    ("a", ⟨1, 0, 31⟩) (by decide)

/-! ## C8: the stale-byte counter computed by replay

`replayRecords` is the record-level image of `load` (the byte-level
`loadAux` is connected to it below); `specStaleFrom`/`specStaleBytes` is
the specification's formula, written from the spec's words: count every
`Set` record that a later record of the same key shadows, and every
`Remove` record itself. -/

/-- Records paired with their encoded lengths. -/
def withLens (rs : List Command) : List (Command × Nat) :=
  rs.map (fun c => (c, (encodeCommand c).length))

/-- Does a later record of key `k` occur in `rs`? -/
def shadowed (k : String) (rs : List (Command × Nat)) : Bool :=
  rs.any (fun r => r.1.key == k)

/-- The spec's stale-byte formula over a record list, parameterised by the
records that follow (`after`), so that it composes over file boundaries:
a `Set` counts when shadowed by anything later (in its own tail or in
`after`); a `Remove` always counts its own length. -/
def specStaleFrom : List (Command × Nat) → List (Command × Nat) → Nat
  | [], _ => 0
  | (Command.Set k _, len) :: t, after =>
      (if shadowed k (t ++ after) then len else 0) + specStaleFrom t after
  | (Command.Remove _, len) :: t, after => len + specStaleFrom t after

/-- The claim's formula: shadowed `Set`s plus all `Remove`s. -/
def specStaleBytes (rs : List (Command × Nat)) : Nat := specStaleFrom rs []

/-- The stored length of the entry currently indexed under `k` (0 when
absent) — the quantity `load` adds to the stale counter. -/
def oldLen (idx : Index) (k : String) : Nat :=
  match lookupIdx idx k with
  | some cp => cp.len
  | none => 0

/-- The record-level replay of one file: exactly the loop body of `load`. -/
def replayRecords (gen : Nat) : List (Command × Nat) → Nat → Index → Nat → Index × Nat
  | [], _, idx, unc => (idx, unc)
  | (Command.Set k _, len) :: t, pos, idx, unc =>
      replayRecords gen t (pos + len) (insertIdx k ⟨gen, pos, len⟩ idx) (unc + oldLen idx k)
  | (Command.Remove k, len) :: t, pos, idx, unc =>
      replayRecords gen t (pos + len) (removeIdx k idx) (unc + oldLen idx k + len)

/-- A directory at record level: generation and records with lengths. -/
abbrev RecDir := List (Nat × List (Command × Nat))

/-- Replay a whole directory in order (the loop of `KvStore::open`). -/
def replayDir : RecDir → Index → Nat → Index × Nat
  | [], idx, unc => (idx, unc)
  | (g, rs) :: t, idx, unc =>
      replayDir t (replayRecords g rs 0 idx unc).1 (replayRecords g rs 0 idx unc).2

def flattenRecs : RecDir → List (Command × Nat)
  | [] => []
  | (_, rs) :: t => rs ++ flattenRecs t

def encodeDir (d : List (Nat × List Command)) : FileMap :=
  d.map (fun p => (p.1, encodeRecords p.2))

def dirWithLens (d : List (Nat × List Command)) : RecDir :=
  d.map (fun p => (p.1, withLens p.2))

/-- The stale bytes an existing index contributes against a record list:
each entry whose key is shadowed contributes its stored length. -/
def idxStale (idx : Index) (rs : List (Command × Nat)) : Nat :=
  (idx.map (fun e => if shadowed e.1 rs then e.2.len else 0)).sum

theorem idxStale_nil : ∀ rs, idxStale [] rs = 0 := fun _ => rfl

theorem idxStale_cons (k0 : String) (v0 : CommandPos) (t : Index) (rs : List (Command × Nat)) :
    idxStale ((k0, v0) :: t) rs =
      (if shadowed k0 rs then v0.len else 0) + idxStale t rs := by
  simp [idxStale]

theorem idxStale_empty_domain : ∀ idx : Index, idxStale idx [] = 0
  | [] => rfl
  | (k0, v0) :: t => by
    rw [idxStale_cons, idxStale_empty_domain t]
    simp [shadowed]

theorem shadowed_cons (k : String) (c : Command) (l : Nat) (rs : List (Command × Nat)) :
    shadowed k ((c, l) :: rs) = (c.key == k || shadowed k rs) := by
  simp [shadowed]

theorem removeIdx_absent (k : String) (idx : Index) (h : ∀ e ∈ idx, e.1 ≠ k) :
    removeIdx k idx = idx := by
  rw [removeIdx, List.filter_eq_self]
  intro e he
  simpa using h e he

theorem idxStale_congr (idx : Index) (rs rs2 : List (Command × Nat))
    (h : ∀ e ∈ idx, shadowed e.1 rs = shadowed e.1 rs2) :
    idxStale idx rs = idxStale idx rs2 := by
  induction idx with
  | nil => rfl
  | cons e t ih =>
    obtain ⟨k0, v0⟩ := e
    rw [idxStale_cons, idxStale_cons, h (k0, v0) (List.mem_cons_self _ _),
      ih (fun e2 he2 => h e2 (List.mem_cons_of_mem _ he2))]

/-- Splitting the index stale-sum at one key (keys are pairwise distinct):
the key's own contribution plus the rest. -/
theorem idxStale_erase (k : String) :
    ∀ (idx : Index) (D : List (Command × Nat)),
      List.Pairwise (fun a b => a.1 < b.1) idx →
      idxStale idx D =
        (if shadowed k D then oldLen idx k else 0) + idxStale (removeIdx k idx) D
  | [], D, _ => by simp [idxStale, removeIdx, lookupIdx, oldLen]
  | (k0, v0) :: t, D, hpw => by
    rw [List.pairwise_cons] at hpw
    by_cases hk : k0 = k
    · subst hk
      have habs : ∀ e ∈ t, e.1 ≠ k0 := fun e he h => by
        have := hpw.1 e he
        rw [h] at this
        exact lt_irrefl _ this
      rw [idxStale_cons, oldLen, lookupIdx, if_pos rfl, removeIdx,
        List.filter_cons_of_neg (by simp), ← removeIdx, removeIdx_absent k0 t habs]
    · rw [idxStale_cons, oldLen, lookupIdx, if_neg hk, ← oldLen, removeIdx,
        List.filter_cons_of_pos (by simp [hk]), ← removeIdx, idxStale_cons,
        idxStale_erase k t D hpw.2]
      omega

/-- The index stale-sum after an insert-or-replace: the inserted entry's
contribution plus the other keys'. -/
theorem idxStale_insert (k : String) (cp : CommandPos) :
    ∀ (idx : Index) (D : List (Command × Nat)),
      List.Pairwise (fun a b => a.1 < b.1) idx →
      idxStale (insertIdx k cp idx) D =
        (if shadowed k D then cp.len else 0) + idxStale (removeIdx k idx) D
  | [], D, _ => by simp [insertIdx, idxStale, removeIdx]
  | (k0, v0) :: t, D, hpw => by
    rw [List.pairwise_cons] at hpw
    by_cases h1 : k < k0
    · have habs : ∀ e ∈ t, e.1 ≠ k := fun e he h => by
        have h2 := hpw.1 e he
        rw [h] at h2
        exact absurd (lt_trans h1 h2) (lt_irrefl k)
      rw [insertIdx, if_pos h1, idxStale_cons, idxStale_cons, removeIdx,
        List.filter_cons_of_pos (by simpa using ne_of_gt h1),
        ← removeIdx, removeIdx_absent k t habs, idxStale_cons]
    · by_cases h2 : k = k0
      · subst h2
        have habs : ∀ e ∈ t, e.1 ≠ k := fun e he h => by
          have h2 := hpw.1 e he
          rw [h] at h2
          exact lt_irrefl _ h2
        rw [insertIdx, if_neg h1, if_pos rfl, idxStale_cons, removeIdx,
          List.filter_cons_of_neg (by simp), ← removeIdx, removeIdx_absent k t habs]
      · have h3 : ¬(k0 = k) := fun h => h2 h.symm
        rw [insertIdx, if_neg h1, if_neg h2, idxStale_cons, removeIdx,
          List.filter_cons_of_pos (by simp [h3]), ← removeIdx, idxStale_cons,
          idxStale_insert k cp t D hpw.2]
        omega

theorem specStaleFrom_append : ∀ (xs ys after : List (Command × Nat)),
    specStaleFrom (xs ++ ys) after = specStaleFrom xs (ys ++ after) + specStaleFrom ys after
  | [], ys, after => by rw [List.nil_append, specStaleFrom, Nat.zero_add]
  | (Command.Set k v, len) :: t, ys, after => by
    rw [List.cons_append, specStaleFrom, specStaleFrom,
      specStaleFrom_append t ys after, List.append_assoc]
    omega
  | (Command.Remove k, len) :: t, ys, after => by
    rw [List.cons_append, specStaleFrom, specStaleFrom, specStaleFrom_append t ys after]
    omega

theorem replayRecords_pairwise (gen : Nat) :
    ∀ (rs : List (Command × Nat)) (pos : Nat) (idx : Index) (unc : Nat),
      List.Pairwise (fun a b => a.1 < b.1) idx →
      List.Pairwise (fun a b => a.1 < b.1) (replayRecords gen rs pos idx unc).1
  | [], pos, idx, unc, hpw => hpw
  | (Command.Set k v, len) :: t, pos, idx, unc, hpw => by
    rw [replayRecords]
    exact replayRecords_pairwise gen t _ _ _ (pairwise_insertIdx _ _ _ hpw)
  | (Command.Remove k, len) :: t, pos, idx, unc, hpw => by
    rw [replayRecords]
    exact replayRecords_pairwise gen t _ _ _ (pairwise_removeIdx _ _ hpw)

/-- The core accounting identity of replay: the stale counter computed by
the `load` loop, plus what the final index still has at stake against any
continuation `R`, equals the starting counter plus the initial index's
stake against everything plus the spec's formula for this file. -/
theorem replayRecords_stale (gen : Nat) :
    ∀ (rs R : List (Command × Nat)) (pos : Nat) (idx : Index) (unc : Nat),
      List.Pairwise (fun a b => a.1 < b.1) idx →
      (replayRecords gen rs pos idx unc).2 + idxStale (replayRecords gen rs pos idx unc).1 R =
        unc + idxStale idx (rs ++ R) + specStaleFrom rs R
  | [], R, pos, idx, unc, hpw => by
    rw [replayRecords, List.nil_append, specStaleFrom]
    dsimp only
    omega
  | (Command.Set k v, len) :: t, R, pos, idx, unc, hpw => by
    rw [replayRecords, specStaleFrom, List.cons_append,
      replayRecords_stale gen t R _ _ _ (pairwise_insertIdx _ _ _ hpw)]
    have hB := idxStale_insert k ⟨gen, pos, len⟩ idx (t ++ R) hpw
    have hA := idxStale_erase k idx ((Command.Set k v, len) :: (t ++ R)) hpw
    have hsh : shadowed k ((Command.Set k v, len) :: (t ++ R)) = true := by
      rw [shadowed_cons]
      simp [Command.key]
    have hcongr : idxStale (removeIdx k idx) ((Command.Set k v, len) :: (t ++ R)) =
        idxStale (removeIdx k idx) (t ++ R) := by
      apply idxStale_congr
      intro e he
      have hne : e.1 ≠ k := by
        have := List.of_mem_filter he
        simpa using this
      rw [shadowed_cons]
      simp [Command.key, Ne.symm hne]
    rw [hsh, if_pos rfl, hcongr] at hA
    rw [hB, hA]
    dsimp only
    omega
  | (Command.Remove k, len) :: t, R, pos, idx, unc, hpw => by
    rw [replayRecords, specStaleFrom, List.cons_append,
      replayRecords_stale gen t R _ _ _ (pairwise_removeIdx _ _ hpw)]
    have hA := idxStale_erase k idx ((Command.Remove k, len) :: (t ++ R)) hpw
    have hsh : shadowed k ((Command.Remove k, len) :: (t ++ R)) = true := by
      rw [shadowed_cons]
      simp [Command.key]
    have hcongr : idxStale (removeIdx k idx) ((Command.Remove k, len) :: (t ++ R)) =
        idxStale (removeIdx k idx) (t ++ R) := by
      apply idxStale_congr
      intro e he
      have hne : e.1 ≠ k := by
        have := List.of_mem_filter he
        simpa using this
      rw [shadowed_cons]
      simp [Command.key, Ne.symm hne]
    rw [hsh, if_pos rfl, hcongr] at hA
    rw [hA]
    omega

theorem replayDir_stale : ∀ (d : RecDir) (idx : Index) (unc : Nat),
    List.Pairwise (fun a b => a.1 < b.1) idx →
    (replayDir d idx unc).2 =
      unc + idxStale idx (flattenRecs d) + specStaleBytes (flattenRecs d)
  | [], idx, unc, hpw => by
    rw [replayDir, flattenRecs, specStaleBytes, specStaleFrom, idxStale_empty_domain]
    rfl
  | (g, rs) :: t, idx, unc, hpw => by
    rw [replayDir, flattenRecs,
      replayDir_stale t _ _ (replayRecords_pairwise g rs 0 idx unc hpw)]
    have hL := replayRecords_stale g rs (flattenRecs t) 0 idx unc hpw
    have hS := specStaleFrom_append rs (flattenRecs t) []
    rw [List.append_nil] at hS
    rw [hL, specStaleBytes, specStaleBytes, hS]
    omega

/-- Byte-level replay of an encoded record list is exactly the record-level
replay (with enough fuel, which `loadFile` always supplies). -/
theorem loadAux_encode (gen : Nat) :
    ∀ (rs : List Command) (fuel pos : Nat) (idx : Index) (unc : Nat),
      (encodeRecords rs).length < fuel →
      loadAux gen fuel (encodeRecords rs) pos idx unc =
        Except.ok (replayRecords gen (withLens rs) pos idx unc)
  | [], fuel, pos, idx, unc => by
    intro hf
    rw [encodeRecords] at hf ⊢
    cases fuel with
    | zero => exact absurd hf (by simp)
    | succ f =>
      rw [loadAux, show streamNext [] = StreamStep.done from rfl]
      rfl
  | c :: rs, fuel, pos, idx, unc => by
    intro hf
    rw [encodeRecords] at hf ⊢
    cases fuel with
    | zero => omega
    | succ f =>
      rw [loadAux, streamNext_encode]
      have hc := List.length_pos.mpr (encodeCommand_ne_nil c)
      have hlen2 : (encodeRecords rs).length < f := by
        have := List.length_append (encodeCommand c) (encodeRecords rs)
        omega
      have hx : (encodeCommand c ++ encodeRecords rs).length - (encodeRecords rs).length
          = (encodeCommand c).length := by
        rw [List.length_append]
        omega
      cases c with
      | Set k v =>
        dsimp only
        rw [hx]
        have hy : pos + (encodeCommand (Command.Set k v)).length - pos =
            (encodeCommand (Command.Set k v)).length := by omega
        rw [hy]
        rw [show withLens (Command.Set k v :: rs) =
          (Command.Set k v, (encodeCommand (Command.Set k v)).length) :: withLens rs from rfl]
        rw [replayRecords]
        exact loadAux_encode gen rs f _ _ _ hlen2
      | Remove k =>
        dsimp only
        rw [hx]
        have hy : pos + (encodeCommand (Command.Remove k)).length - pos =
            (encodeCommand (Command.Remove k)).length := by omega
        rw [hy]
        rw [show withLens (Command.Remove k :: rs) =
          (Command.Remove k, (encodeCommand (Command.Remove k)).length) :: withLens rs from rfl]
        rw [replayRecords]
        exact loadAux_encode gen rs f _ _ _ hlen2

/-- Replaying a list of generations none of which is `g` ignores a leading
directory entry for `g`. -/
theorem loadAll_skip_head (g : Nat) (X : List Char) (dir : FileMap) :
    ∀ (gens : List Nat) (idx : Index) (unc : Nat), (∀ g2 ∈ gens, g2 ≠ g) →
      loadAll ((g, X) :: dir) gens idx unc = loadAll dir gens idx unc
  | [], idx, unc, _ => by rw [loadAll, loadAll]
  | g2 :: t, idx, unc, h => by
    rw [loadAll, loadAll, lookupFile,
      if_neg (fun hx : g = g2 => (h g2 (List.mem_cons_self _ _)) hx.symm)]
    cases lookupFile dir g2 with
    | none => rfl
    | some content =>
      dsimp only
      cases loadFile g2 content idx unc with
      | error e => rfl
      | ok r =>
        dsimp only
        exact loadAll_skip_head g X dir t r.1 r.2
          (fun g3 h3 => h g3 (List.mem_cons_of_mem _ h3))

/-- Replaying an encoded directory in its own key order is the record-level
directory replay. -/
theorem loadAll_encode : ∀ (d : List (Nat × List Command)) (idx : Index) (unc : Nat),
    (d.map Prod.fst).Nodup →
    loadAll (encodeDir d) (d.map Prod.fst) idx unc =
      Except.ok (replayDir (dirWithLens d) idx unc)
  | [], idx, unc, _ => by rw [encodeDir, dirWithLens]; rfl
  | (g, rs) :: t, idx, unc, hnd => by
    rw [List.map_cons, List.nodup_cons] at hnd
    rw [show encodeDir ((g, rs) :: t) = (g, encodeRecords rs) :: encodeDir t from rfl,
      List.map_cons, loadAll, lookupFile, if_pos rfl]
    dsimp only
    rw [loadFile, loadAux_encode g rs _ 0 idx unc (by omega)]
    dsimp only
    rw [loadAll_skip_head g (encodeRecords rs) (encodeDir t) (t.map Prod.fst) _ _
      (fun g2 h2 hx => hnd.1 (hx ▸ h2)),
      loadAll_encode t _ _ hnd.2]
    rw [show dirWithLens ((g, rs) :: t) = (g, withLens rs) :: dirWithLens t from rfl,
      replayDir]

theorem insertGen_head (x : Nat) : ∀ t : List Nat, (∀ y ∈ t, x < y) → insertGen x t = x :: t
  | [], _ => rfl
  | y :: t, h => by
    rw [insertGen, if_pos (le_of_lt (h y (List.mem_cons_self _ _)))]

theorem sortGens_sorted_id : ∀ l : List Nat, List.Pairwise (· < ·) l → sortGens l = l
  | [], _ => rfl
  | x :: t, hpw => by
    rw [List.pairwise_cons] at hpw
    rw [sortGens, sortGens_sorted_id t hpw.2, insertGen_head x t hpw.1]

/-- C8: after replaying a log directory (sorted, duplicate-free
generations, cleanly encoded records), the stale-byte counter equals the
specification's formula: the encoded length of every `Set` record later
shadowed by a newer `Set` or `Remove` of the same key, plus the encoded
length of every `Remove` record itself. -/
theorem claim_C8_replay_stale_bytes (d : List (Nat × List Command))
    (hnd : (d.map Prod.fst).Nodup) (hsorted : List.Pairwise (· < ·) (d.map Prod.fst))
    (s : KvState) (h : openStore (encodeDir d) = Except.ok s) :
    s.uncompacted = specStaleBytes (flattenRecs (dirWithLens d)) := by
  rw [openStore] at h
  dsimp only at h
  have hg : (encodeDir d).map Prod.fst = d.map Prod.fst := by
    rw [encodeDir, List.map_map]
    rfl
  rw [hg, sortGens_sorted_id _ hsorted, loadAll_encode d [] 0 hnd] at h
  cases hrd : replayDir (dirWithLens d) [] 0 with
  | mk idxR uncR =>
    rw [hrd] at h
    dsimp only at h
    cases h
    have hst := replayDir_stale (dirWithLens d) [] 0 List.Pairwise.nil
    rw [hrd] at hst
    dsimp only at hst
    rw [idxStale_nil] at hst
    dsimp only
    omega

/-- A concrete directory exercising overwrite, removal and a second file. -/
def c8WitDir : List (Nat × List Command) :=
  [(1, [Command.Set "a" "1", Command.Set "a" "2", Command.Remove "a"]),
   (2, [Command.Set "b" "3"])]

def c8WitState : KvState :=
  match openStore (encodeDir c8WitDir) with
  | Except.ok s => s
  | Except.error _ => baseState

theorem claim_C8_replay_stale_bytes_witness :
    c8WitState.uncompacted = specStaleBytes (flattenRecs (dirWithLens c8WitDir)) :=
  claim_C8_replay_stale_bytes c8WitDir (by decide) (by decide) c8WitState (by rfl)

/-- Replay of a directory whose earlier files are clean while the last
(highest-generation) file ends in an undecodable tail: the error from the
last file propagates out of the replay loop. -/
theorem loadAll_clean_then_bad (g : Nat) (rs : List Command) (t : List Char)
    (hbad : streamNext t = StreamStep.fail) :
    ∀ (d : List (Nat × List Command)) (idx : Index) (unc : Nat),
      (d.map Prod.fst).Nodup → (∀ g2 ∈ d.map Prod.fst, g2 ≠ g) →
      loadAll (encodeDir d ++ [(g, encodeRecords rs ++ t)]) (d.map Prod.fst ++ [g]) idx unc =
        Except.error KvsErr.serdeError
  | [], idx, unc, _, _ => by
    rw [show encodeDir [] = ([] : FileMap) from rfl, List.map_nil, List.nil_append,
      List.nil_append, loadAll, lookupFile, if_pos rfl]
    dsimp only
    rw [loadFile, loadAux_encode_fail g rs t _ 0 idx unc (by omega) hbad]
  | (g1, rs1) :: d', idx, unc, hnd, hne => by
    rw [List.map_cons, List.nodup_cons] at hnd
    have hg1 : g1 ≠ g := hne g1 (by rw [List.map_cons]; exact List.mem_cons_self _ _)
    rw [show encodeDir ((g1, rs1) :: d') = (g1, encodeRecords rs1) :: encodeDir d' from rfl,
      List.cons_append, List.map_cons, List.cons_append, loadAll, lookupFile, if_pos rfl]
    dsimp only
    cases hr : replayRecords g1 (withLens rs1) 0 idx unc with
    | mk idx1 unc1 =>
      rw [loadFile, loadAux_encode g1 rs1 _ 0 idx unc (by omega), hr]
      dsimp only
      rw [loadAll_skip_head g1 (encodeRecords rs1) (encodeDir d' ++ [(g, encodeRecords rs ++ t)])
        (d'.map Prod.fst ++ [g]) idx1 unc1 ?hskip]
      · exact loadAll_clean_then_bad g rs t hbad d' idx1 unc1 hnd.2
          (fun g2 h2 => hne g2 (by rw [List.map_cons]; exact List.mem_cons_of_mem _ h2))
      case hskip =>
        intro g2 h2
        rcases List.mem_append.1 h2 with h2 | h2
        · intro hx
          exact hnd.1 (hx ▸ h2)
        · rw [List.mem_singleton.1 h2]
          exact fun hx => hg1 hx.symm

/-- C1 amended: for every log directory whose files are cleanly encoded
records except that the last (highest-generation) file ends in an
undecodable tail, opening the store fails with the deserialization error;
the partial trailing record is not skipped, and the clean earlier files do
not rescue the open. -/
theorem claim_C1_amended_open_fails (d : List (Nat × List Command)) (g : Nat)
    (rs : List Command) (t : List Char) (hbad : streamNext t = StreamStep.fail)
    (hsorted : List.Pairwise (· < ·) (d.map Prod.fst ++ [g])) :
    openStore (encodeDir d ++ [(g, encodeRecords rs ++ t)]) =
      Except.error KvsErr.serdeError := by
  have hmap : (encodeDir d ++ [(g, encodeRecords rs ++ t)]).map Prod.fst =
      d.map Prod.fst ++ [g] := by
    rw [List.map_append, encodeDir, List.map_map]
    rfl
  have hparts := List.pairwise_append.1 hsorted
  have hnd : (d.map Prod.fst).Nodup := List.Pairwise.imp (fun h => ne_of_lt h) hparts.1
  have hne : ∀ g2 ∈ d.map Prod.fst, g2 ≠ g := fun g2 h2 =>
    ne_of_lt (hparts.2.2 g2 h2 g (List.mem_singleton.2 rfl))
  rw [openStore]
  dsimp only
  rw [hmap, sortGens_sorted_id _ hsorted,
    loadAll_clean_then_bad g rs t hbad d [] 0 hnd hne]

theorem claim_C1_amended_open_fails_witness :
    openStore (encodeDir [(1, [Command.Set "a" "1"])] ++
      [(2, encodeRecords [Command.Set "c" "3"] ++
        (encodeCommand (Command.Set "b" "2")).take 5)]) =
      Except.error KvsErr.serdeError :=
  claim_C1_amended_open_fails [(1, [Command.Set "a" "1"])] 2 [Command.Set "c" "3"]
    ((encodeCommand (Command.Set "b" "2")).take 5) (by decide) (by decide)

end Kvs
